import Mathlib

/-!
Shallow embedding of the connection-hub core of the coopcinema repository:
the hub package (src/hub/hub.go) over the models package structures, and the
handler entry points ServeWs and readPump.  Go maps are embedded as
association lists, a Go channel of capacity N as a bounded queue with a
closed flag, and the pointer identity of a models.Client as a numeric ref
field.  All hub operations are the sequential semantics of the Go code: the
Run loop serialises register and unregister, and Broadcast interleaves at
the granularity of whole calls.
-/

namespace Coopcinema

/-- Go struct models.Message.  The Timestamp field is a float64 in Go; the
hub only copies it verbatim and never performs arithmetic on it, so it is
embedded as an opaque integer carrier with decidable equality. -/
structure Message where
  type : String
  timestamp : Int
  roomCode : String
  userName : String
  userID : String
deriving DecidableEq, Repr

/-- Go struct models.Client.  The ref field embeds the pointer identity of
the Go value: room membership and the skip test in Broadcast compare
pointers, which the embedding compares as refs. -/
structure Client where
  ref : Nat
  ID : String
  Name : String
  RoomCode : String
deriving DecidableEq, Repr

/-- State of one Send channel (make(chan models.Message, cap)): the queued,
not yet drained messages, oldest first, and whether close has been called. -/
structure Mailbox where
  msgs : List Message
  closed : Bool
deriving DecidableEq, Repr

/-- Go struct models.Room: the room code and the membership set
map[interface\x7b\x7d]bool, embedded as a duplicate-free list of clients. -/
structure Room where
  Code : String
  Clients : List Client
deriving DecidableEq, Repr

/-- The mutable state the hub operations act on: the registry
Hub.Rooms : map[string]*Room, plus the state of every Send channel,
keyed by the owning client pointer. -/
structure HubState where
  Rooms : List (String × Room)
  mailboxes : List (Nat × Mailbox)
deriving DecidableEq, Repr

/-- Lookup in an association list, embedding a Go map read. -/
def alGet [DecidableEq α] : List (α × β) → α → Option β
  | [], _ => none
  | (k, v) :: rest, k2 => if k = k2 then some v else alGet rest k2

/-- Update or insert in an association list, embedding a Go map write. -/
def alSet [DecidableEq α] : List (α × β) → α → β → List (α × β)
  | [], k, v => [(k, v)]
  | (k2, v2) :: rest, k, v =>
    if k2 = k then (k2, v) :: rest else (k2, v2) :: alSet rest k v

/-- Removal from an association list, embedding a Go map delete. -/
def alErase [DecidableEq α] : List (α × β) → α → List (α × β)
  | [], _ => []
  | (k2, v2) :: rest, k =>
    if k2 = k then alErase rest k else (k2, v2) :: alErase rest k

/-- True when the client with the given ref has a mailbox that exists and is
not closed. -/
def mbOpen (mbs : List (Nat × Mailbox)) (r : Nat) : Bool :=
  match alGet mbs r with
  | some mb => !mb.closed
  | none => false

/-- Config.ClientSendBuffer from src/config/config.go: the capacity of every
Send channel created by ServeWs. -/
def clientSendBuffer : Nat := 256

/-- One membership entry of the userList payload.  json.Marshal of a Go
map[string]string emits keys in sorted order, hence id before name; string
escaping is omitted, which agrees with json.Marshal on ids and names free of
characters that need escaping. -/
def jsonUserEntry (c : Client) : String :=
  "\x7b\"id\":\"" ++ c.ID ++ "\",\"name\":\"" ++ c.Name ++ "\"\x7d"

/-- The JSON array json.Marshal produces for the users slice built by
Hub.BroadcastUserList, in membership iteration order. -/
def userListJSON (members : List Client) : String :=
  "[" ++ String.intercalate "," (members.map jsonUserEntry) ++ "]"

/-- The models.Message value Hub.BroadcastUserList constructs: only Type and
UserName are set, the remaining fields keep their Go zero values. -/
def userListMessage (members : List Client) : Message :=
  { type := "userList", timestamp := 0, roomCode := "",
    userName := userListJSON members, userID := "" }

namespace Hub

/-- One non-blocking send attempt, the body of
select \x7b case client.Send <- msg: default: close(client.Send);
delete(room.Clients, client) \x7d.  Returns true and the enqueued mailbox
when the channel has room, false and the closed mailbox otherwise.  A send
on a closed channel would panic in Go; every room member has an open
mailbox in every state the hub reaches, so that branch is unreachable and
the embedding resolves it, like a missing mailbox, as eviction with the
mailboxes left untouched. -/
def deliverTo (cap : Nat) (msg : Message) (mbs : List (Nat × Mailbox))
    (c : Client) : Bool × List (Nat × Mailbox) :=
  match alGet mbs c.ref with
  | none => (false, mbs)
  | some mb =>
    if mb.closed then (false, mbs)
    else if mb.msgs.length < cap then
      (true, alSet mbs c.ref { mb with msgs := mb.msgs ++ [msg] })
    else
      (false, alSet mbs c.ref { mb with closed := true })

/-- The delivery loop shared by Broadcast and BroadcastUserList: walk the
membership, skip the member whose ref equals skipRef (the client != sender
pointer test), attempt a non-blocking send to every other member, and drop
from the membership every member whose send failed. -/
def deliverAll (cap : Nat) (msg : Message) (skipRef : Option Nat) :
    List Client → List (Nat × Mailbox) → List Client × List (Nat × Mailbox)
  | [], mbs => ([], mbs)
  | c :: rest, mbs =>
    if skipRef = some c.ref then
      let p := deliverAll cap msg skipRef rest mbs
      (c :: p.1, p.2)
    else
      let q := deliverTo cap msg mbs c
      let p := deliverAll cap msg skipRef rest q.2
      (if q.1 then c :: p.1 else p.1, p.2)

/-- Hub.BroadcastUserList from src/hub/hub.go, applied to the registry room
under the given code (every Go call site passes a room that is in the
registry): snapshot the membership into a userList message, then run the
non-blocking delivery loop over every member with no sender exclusion. -/
def BroadcastUserList (cap : Nat) (s : HubState) (code : String) : HubState :=
  match alGet s.Rooms code with
  | none => s
  | some room =>
    let msg := userListMessage room.Clients
    let p := deliverAll cap msg none room.Clients s.mailboxes
    { Rooms := alSet s.Rooms code { room with Clients := p.1 },
      mailboxes := p.2 }

/-- Membership insert room.Clients[client] = true, keyed on the client
pointer. -/
def addMember (members : List Client) (c : Client) : List Client :=
  if members.any (fun m => m.ref == c.ref) then members else members ++ [c]

/-- Membership delete(room.Clients, client), keyed on the client pointer. -/
def removeMember (members : List Client) (c : Client) : List Client :=
  members.filter (fun m => m.ref != c.ref)

/-- Hub.registerClient from src/hub/hub.go: look up or lazily create the
room for client.RoomCode (a fresh room starts with an empty membership into
which the client is inserted), add the client to its membership, then
broadcast the user list to that room. -/
def registerClient (cap : Nat) (s : HubState) (client : Client) : HubState :=
  match alGet s.Rooms client.RoomCode with
  | some room =>
    BroadcastUserList cap
      { s with Rooms := (alSet s.Rooms client.RoomCode
          { room with Clients := addMember room.Clients client }) }
      client.RoomCode
  | none =>
    BroadcastUserList cap
      { s with Rooms := (alSet s.Rooms client.RoomCode
          { Code := client.RoomCode, Clients := [client] }) }
      client.RoomCode

/-- Setting the closed flag of the mailbox under the given ref, embedding
close(client.Send). -/
def mboxClose (mbs : List (Nat × Mailbox)) (r : Nat) : List (Nat × Mailbox) :=
  match alGet mbs r with
  | none => mbs
  | some mb => alSet mbs r { mb with closed := true }

/-- The guarded body if _, ok := room.Clients[client]; ok of
Hub.unregisterClient: when the client is a member of the registered room
under its own room code, remove it from the membership and close its
mailbox; otherwise change nothing. -/
def removeAndClose (s : HubState) (client : Client) : HubState :=
  match alGet s.Rooms client.RoomCode with
  | none => s
  | some room =>
    if room.Clients.any (fun m => m.ref == client.ref) then
      { Rooms := alSet s.Rooms client.RoomCode
          { room with Clients := removeMember room.Clients client },
        mailboxes := mboxClose s.mailboxes client.ref }
    else s

/-- The empty-room cleanup tail of Hub.unregisterClient: delete the room
under the given code from the registry when its membership is empty. -/
def dropRoomIfEmpty (s : HubState) (code : String) : HubState :=
  match alGet s.Rooms code with
  | none => s
  | some room =>
    if room.Clients.length = 0 then
      { s with Rooms := alErase s.Rooms code }
    else s

/-- Hub.unregisterClient from src/hub/hub.go: if the room of the client is
registered, remove the client from it and close its mailbox when it was a
member, rebroadcast the user list to the room, and erase the room from the
registry when it ended up empty. -/
def unregisterClient (cap : Nat) (s : HubState) (client : Client) : HubState :=
  match alGet s.Rooms client.RoomCode with
  | none => s
  | some _ =>
    dropRoomIfEmpty
      (BroadcastUserList cap (removeAndClose s client) client.RoomCode)
      client.RoomCode

/-- Hub.Broadcast from src/hub/hub.go: look up the room under the RoomCode
of the sender; when absent drop the message and leave the state untouched;
otherwise run the delivery loop over the membership, skipping the sender by
pointer equality. -/
def Broadcast (cap : Nat) (s : HubState) (msg : Message) (sender : Client) :
    HubState :=
  match alGet s.Rooms sender.RoomCode with
  | none => s
  | some room =>
    let p := deliverAll cap msg (some sender.ref) room.Clients s.mailboxes
    { Rooms := alSet s.Rooms sender.RoomCode { room with Clients := p.1 },
      mailboxes := p.2 }

end Hub

/-- The identity stamp msg.UserID = client.ID performed by readPump on every
successfully read frame before submission to the hub. -/
def stampMessage (client : Client) (msg : Message) : Message :=
  { msg with userID := client.ID }

/-- One iteration of the readPump loop body after a successful ReadJSON:
stamp the frame with the identity of the reading client and submit it to
Hub.Broadcast. -/
def readPumpStep (cap : Nat) (s : HubState) (client : Client) (msg : Message) :
    HubState :=
  Hub.Broadcast cap s (stampMessage client msg) client

/-- Outcome of the ServeWs handler: an HTTP error written before any
upgrade, or an upgraded connection with its freshly created client. -/
inductive ServeWsResult where
  | rejected (status : Nat)
  | joined (client : Client)
deriving DecidableEq, Repr

/-- ServeWs from the handlers package (serveWs in src/main.go): read the
three query parameters (a missing parameter and an empty one are alike,
Query().Get returns the empty string for both), reject with 400 before any
upgrade when one is empty, otherwise create the client with a fresh open
mailbox of capacity cap under a fresh ref and hand it to the register path
of the hub Run loop. -/
def serveWs (cap : Nat) (s : HubState) (ref : Nat)
    (roomCode userName userID : String) : ServeWsResult × HubState :=
  if roomCode = "" ∨ userName = "" ∨ userID = "" then
    (ServeWsResult.rejected 400, s)
  else
    let client : Client :=
      { ref := ref, ID := userID, Name := userName, RoomCode := roomCode }
    let s1 : HubState :=
      { s with mailboxes := alSet s.mailboxes ref { msgs := [], closed := false } }
    (ServeWsResult.joined client, Hub.registerClient cap s1 client)

/-- Well-formedness of a hub state, maintained by the Go program: registry
keys are distinct, each room is stored under its own code, members carry the
code of the room they are stored in, member refs are distinct within a room,
every member has an existing open mailbox, and a ref determines the client
record across the whole registry (two pointers are equal only when they are
the same client). -/
def WFState (s : HubState) : Prop :=
  s.Rooms.Pairwise (fun e1 e2 => e1.1 ≠ e2.1) ∧
  (∀ e ∈ s.Rooms, e.2.Code = e.1 ∧
    (∀ c ∈ e.2.Clients, c.RoomCode = e.1) ∧
    e.2.Clients.Pairwise (fun a b => a.ref ≠ b.ref) ∧
    (∀ c ∈ e.2.Clients, mbOpen s.mailboxes c.ref = true)) ∧
  (∀ e1 ∈ s.Rooms, ∀ e2 ∈ s.Rooms, ∀ a ∈ e1.2.Clients, ∀ b ∈ e2.2.Clients,
    a.ref = b.ref → a = b)

/-- The registry-membership invariant of the spec: every registered room has
at least one member. -/
def RegistryInv (s : HubState) : Prop :=
  ∀ e ∈ s.Rooms, e.2.Clients ≠ []

/-- The client is a member of the registered room under the given code. -/
def clientRegistered (s : HubState) (code : String) (c : Client) : Prop :=
  ∃ room, alGet s.Rooms code = some room ∧ c ∈ room.Clients

/-! Concrete states used to instantiate the theorems below. -/

/-- A plain application frame used as mailbox filler. -/
def padMsg : Message :=
  { type := "pause", timestamp := 3, roomCode := "", userName := "", userID := "" }

/-- A seek frame as a client would submit it. -/
def seekMsg : Message :=
  { type := "seek", timestamp := 42, roomCode := "", userName := "", userID := "" }

/-- An inbound frame carrying a client-supplied userID, as read off the
wire before the ingress loop stamps it. -/
def wireMsg : Message :=
  { type := "seek", timestamp := 42, roomCode := "", userName := "",
    userID := "zz" }

/-- A mailbox holding no undrained message. -/
def emptyBox : Mailbox := { msgs := [], closed := false }

/-- A mailbox already holding clientSendBuffer undrained messages: the next
non-blocking send to it fails. -/
def fullBox : Mailbox :=
  { msgs := List.replicate clientSendBuffer padMsg, closed := false }

/-- Client Ann, ref 1, in room r. -/
def cAnn : Client := { ref := 1, ID := "ua", Name := "Ann", RoomCode := "r" }

/-- Client Ben, ref 2, in room r. -/
def cBen : Client := { ref := 2, ID := "ub", Name := "Ben", RoomCode := "r" }

/-- Client Eve, ref 3, carrying room code r without being a member: the
situation of a client evicted from the room whose read loop is still
submitting frames. -/
def cEve : Client := { ref := 3, ID := "uc", Name := "Eve", RoomCode := "r" }

/-- Client Dan, ref 4, in room q. -/
def cDan : Client := { ref := 4, ID := "ud", Name := "Dan", RoomCode := "q" }

/-- Two rooms r and q with one member each, all mailboxes empty. -/
def sTwoRooms : HubState :=
  { Rooms := [("r", { Code := "r", Clients := [cAnn] }),
      ("q", { Code := "q", Clients := [cDan] })],
    mailboxes := [(1, emptyBox), (4, emptyBox)] }

/-- Room r with members Ann and Ben, both mailboxes empty, plus an open
mailbox for the not yet registered Eve. -/
def sAnnBen : HubState :=
  { Rooms := [("r", { Code := "r", Clients := [cAnn, cBen] })],
    mailboxes := [(1, emptyBox), (2, emptyBox), (3, emptyBox)] }

/-- Room r with members Ann and Ben where the mailbox of Ben is full. -/
def sBenFull : HubState :=
  { Rooms := [("r", { Code := "r", Clients := [cAnn, cBen] })],
    mailboxes := [(1, emptyBox), (2, fullBox)] }

/-- Room r with members Ben then Ann in iteration order, the mailbox of Ben
full and the mailbox of Ann empty. -/
def sBenAnn : HubState :=
  { Rooms := [("r", { Code := "r", Clients := [cBen, cAnn] })],
    mailboxes := [(1, emptyBox), (2, fullBox)] }

/-- Room r whose only member Ben has a full mailbox; Eve carries room code r
but is no longer a member. -/
def sLoneFull : HubState :=
  { Rooms := [("r", { Code := "r", Clients := [cBen] })],
    mailboxes := [(2, fullBox), (3, emptyBox)] }

/-- Room r whose only member Ann has an empty mailbox; Eve carries room code
r but is no longer a member. -/
def sLoneEmpty : HubState :=
  { Rooms := [("r", { Code := "r", Clients := [cAnn] })],
    mailboxes := [(1, emptyBox), (3, emptyBox)] }

/-- The empty hub: no room, no mailbox. -/
def sEmpty : HubState := { Rooms := [], mailboxes := [] }

instance (s : HubState) : Decidable (WFState s) := by
  unfold WFState; infer_instance

instance (s : HubState) : Decidable (RegistryInv s) := by
  unfold RegistryInv; infer_instance

instance (s : HubState) (code : String) (c : Client) :
    Decidable (clientRegistered s code c) := by
  unfold clientRegistered
  cases h : alGet s.Rooms code with
  | none => exact Decidable.isFalse (by simp [h])
  | some room => exact decidable_of_iff (c ∈ room.Clients) (by simp [h])

/-! Lemmas about the association-list embedding of Go maps. -/

theorem alGet_alSet_self [DecidableEq α] (l : List (α × β)) (k : α) (v : β) :
    alGet (alSet l k v) k = some v := by
  induction l with
  | nil => simp [alSet, alGet]
  | cons e rest ih =>
    obtain ⟨k2, v2⟩ := e
    by_cases h : k2 = k
    · simp [alSet, alGet, h]
    · simp [alSet, alGet, h, ih]

theorem alGet_alSet_ne [DecidableEq α] (l : List (α × β)) (k k2 : α) (v : β)
    (h : k ≠ k2) : alGet (alSet l k v) k2 = alGet l k2 := by
  induction l with
  | nil => simp [alSet, alGet, h]
  | cons e rest ih =>
    obtain ⟨k3, v3⟩ := e
    by_cases h2 : k3 = k
    · subst h2
      simp [alSet, alGet, h]
    · simp [alSet, alGet, h2, ih]

theorem alGet_alErase_self [DecidableEq α] (l : List (α × β)) (k : α) :
    alGet (alErase l k) k = none := by
  induction l with
  | nil => simp [alErase, alGet]
  | cons e rest ih =>
    obtain ⟨k2, v2⟩ := e
    by_cases h : k2 = k
    · simp [alErase, h, ih]
    · simp [alErase, alGet, h, ih]

theorem alGet_alErase_ne [DecidableEq α] (l : List (α × β)) (k k2 : α)
    (h : k ≠ k2) : alGet (alErase l k) k2 = alGet l k2 := by
  induction l with
  | nil => simp [alErase]
  | cons e rest ih =>
    obtain ⟨k3, v3⟩ := e
    by_cases h2 : k3 = k
    · subst h2
      simp [alErase, alGet, h, ih]
    · simp [alErase, alGet, h2, ih]

theorem alGet_mem [DecidableEq α] (l : List (α × β)) (k : α) (v : β)
    (h : alGet l k = some v) : (k, v) ∈ l := by
  induction l with
  | nil => simp [alGet] at h
  | cons e rest ih =>
    obtain ⟨k2, v2⟩ := e
    by_cases h2 : k2 = k
    · subst h2
      simp [alGet] at h
      subst h
      exact List.mem_cons_self _ _
    · simp [alGet, h2] at h
      exact List.mem_cons_of_mem _ (ih h)

theorem alSet_id [DecidableEq α] (l : List (α × β)) (k : α) (v : β)
    (h : alGet l k = some v) : alSet l k v = l := by
  induction l with
  | nil => simp [alGet] at h
  | cons e rest ih =>
    obtain ⟨k2, v2⟩ := e
    by_cases h2 : k2 = k
    · subst h2
      simp [alGet] at h
      simp [alSet, h]
    · simp [alGet, h2] at h
      simp [alSet, h2, ih h]

theorem mem_alSet_elim [DecidableEq α] (l : List (α × β)) (k : α) (v : β)
    (e : α × β) (h : e ∈ alSet l k v) : e ∈ l ∨ e = (k, v) := by
  induction l with
  | nil =>
    simp [alSet] at h
    exact Or.inr h
  | cons e2 rest ih =>
    obtain ⟨k2, v2⟩ := e2
    by_cases h2 : k2 = k
    · subst h2
      simp [alSet] at h
      rcases h with h | h
      · exact Or.inr (by rw [h])
      · exact Or.inl (List.mem_cons_of_mem _ h)
    · simp [alSet, h2] at h
      rcases h with h | h
      · exact Or.inl (by rw [h]; exact List.mem_cons_self _ _)
      · rcases ih h with h3 | h3
        · exact Or.inl (List.mem_cons_of_mem _ h3)
        · exact Or.inr h3

theorem mem_alSet_nodup [DecidableEq α] (l : List (α × β)) (k : α) (v : β)
    (hnd : l.Pairwise (fun a b => a.1 ≠ b.1)) (e : α × β)
    (h : e ∈ alSet l k v) : (e ∈ l ∧ e.1 ≠ k) ∨ e = (k, v) := by
  induction l with
  | nil =>
    simp [alSet] at h
    exact Or.inr h
  | cons e2 rest ih =>
    obtain ⟨k2, v2⟩ := e2
    rw [List.pairwise_cons] at hnd
    obtain ⟨hhead, hrest⟩ := hnd
    by_cases h2 : k2 = k
    · subst h2
      simp [alSet] at h
      rcases h with h | h
      · exact Or.inr (by rw [h])
      · refine Or.inl ⟨List.mem_cons_of_mem _ h, ?_⟩
        intro hk
        exact hhead e h hk.symm
    · simp [alSet, h2] at h
      rcases h with h | h
      · refine Or.inl ⟨by rw [h]; exact List.mem_cons_self _ _, ?_⟩
        rw [h]
        exact h2
      · rcases ih hrest h with ⟨h3, h4⟩ | h3
        · exact Or.inl ⟨List.mem_cons_of_mem _ h3, h4⟩
        · exact Or.inr h3

theorem mem_alErase [DecidableEq α] (l : List (α × β)) (k : α)
    (e : α × β) (h : e ∈ alErase l k) : e ∈ l ∧ e.1 ≠ k := by
  induction l with
  | nil => simp [alErase] at h
  | cons e2 rest ih =>
    obtain ⟨k2, v2⟩ := e2
    by_cases h2 : k2 = k
    · subst h2
      simp [alErase] at h
      obtain ⟨h3, h4⟩ := ih h
      exact ⟨List.mem_cons_of_mem _ h3, h4⟩
    · simp [alErase, h2] at h
      rcases h with h | h
      · refine ⟨by rw [h]; exact List.mem_cons_self _ _, ?_⟩
        rw [h]
        exact h2
      · obtain ⟨h3, h4⟩ := ih h
        exact ⟨List.mem_cons_of_mem _ h3, h4⟩

theorem keysNodup_alSet [DecidableEq α] (l : List (α × β)) (k : α) (v : β)
    (hnd : l.Pairwise (fun a b => a.1 ≠ b.1)) :
    (alSet l k v).Pairwise (fun a b => a.1 ≠ b.1) := by
  induction l with
  | nil => simp [alSet]
  | cons e2 rest ih =>
    obtain ⟨k2, v2⟩ := e2
    rw [List.pairwise_cons] at hnd
    obtain ⟨hhead, hrest⟩ := hnd
    by_cases h2 : k2 = k
    · subst h2
      have hset : alSet ((k2, v2) :: rest) k2 v = (k2, v) :: rest := by
        simp [alSet]
      rw [hset, List.pairwise_cons]
      exact ⟨hhead, hrest⟩
    · simp only [alSet, if_neg h2]
      rw [List.pairwise_cons]
      constructor
      · intro b hb
        rcases mem_alSet_elim rest k v b hb with h3 | h3
        · exact hhead b h3
        · rw [h3]
          exact h2
      · exact ih hrest

/-! Unfolding equations and invariants of the shared delivery loop. -/

theorem deliverAll_nil (cap : Nat) (msg : Message) (skip : Option Nat)
    (mbs : List (Nat × Mailbox)) :
    Hub.deliverAll cap msg skip [] mbs = ([], mbs) := rfl

theorem deliverAll_fst_skip (cap : Nat) (msg : Message) (skip : Option Nat)
    (c : Client) (rest : List Client) (mbs : List (Nat × Mailbox))
    (h : skip = some c.ref) :
    (Hub.deliverAll cap msg skip (c :: rest) mbs).1 =
      c :: (Hub.deliverAll cap msg skip rest mbs).1 := by
  simp only [Hub.deliverAll, if_pos h]

theorem deliverAll_snd_skip (cap : Nat) (msg : Message) (skip : Option Nat)
    (c : Client) (rest : List Client) (mbs : List (Nat × Mailbox))
    (h : skip = some c.ref) :
    (Hub.deliverAll cap msg skip (c :: rest) mbs).2 =
      (Hub.deliverAll cap msg skip rest mbs).2 := by
  simp only [Hub.deliverAll, if_pos h]

theorem deliverAll_fst_keep (cap : Nat) (msg : Message) (skip : Option Nat)
    (c : Client) (rest : List Client) (mbs : List (Nat × Mailbox))
    (h : ¬ skip = some c.ref) (hq : (Hub.deliverTo cap msg mbs c).1 = true) :
    (Hub.deliverAll cap msg skip (c :: rest) mbs).1 =
      c :: (Hub.deliverAll cap msg skip rest
        (Hub.deliverTo cap msg mbs c).2).1 := by
  simp only [Hub.deliverAll, if_neg h, hq, if_true]

theorem deliverAll_fst_drop (cap : Nat) (msg : Message) (skip : Option Nat)
    (c : Client) (rest : List Client) (mbs : List (Nat × Mailbox))
    (h : ¬ skip = some c.ref) (hq : (Hub.deliverTo cap msg mbs c).1 = false) :
    (Hub.deliverAll cap msg skip (c :: rest) mbs).1 =
      (Hub.deliverAll cap msg skip rest (Hub.deliverTo cap msg mbs c).2).1 := by
  simp [Hub.deliverAll, if_neg h, hq]

theorem deliverAll_snd_noskip (cap : Nat) (msg : Message) (skip : Option Nat)
    (c : Client) (rest : List Client) (mbs : List (Nat × Mailbox))
    (h : ¬ skip = some c.ref) :
    (Hub.deliverAll cap msg skip (c :: rest) mbs).2 =
      (Hub.deliverAll cap msg skip rest
        (Hub.deliverTo cap msg mbs c).2).2 := by
  simp only [Hub.deliverAll, if_neg h]

theorem deliverTo_untouched (cap : Nat) (msg : Message)
    (mbs : List (Nat × Mailbox)) (c : Client) (r : Nat) (h : c.ref ≠ r) :
    alGet (Hub.deliverTo cap msg mbs c).2 r = alGet mbs r := by
  unfold Hub.deliverTo
  split
  · rfl
  · split
    · rfl
    · split
      · exact alGet_alSet_ne _ _ _ _ h
      · exact alGet_alSet_ne _ _ _ _ h

theorem deliverAll_sub (cap : Nat) (msg : Message) (skip : Option Nat) :
    ∀ (members : List Client) (mbs : List (Nat × Mailbox)) (x : Client),
      x ∈ (Hub.deliverAll cap msg skip members mbs).1 → x ∈ members := by
  intro members
  induction members with
  | nil =>
    intro mbs x hx
    rw [deliverAll_nil] at hx
    simp at hx
  | cons c rest ih =>
    intro mbs x hx
    by_cases h : skip = some c.ref
    · rw [deliverAll_fst_skip _ _ _ _ _ _ h] at hx
      rcases List.mem_cons.mp hx with h2 | h2
      · rw [h2]; exact List.mem_cons_self _ _
      · exact List.mem_cons_of_mem _ (ih _ x h2)
    · by_cases hq : (Hub.deliverTo cap msg mbs c).1 = true
      · rw [deliverAll_fst_keep _ _ _ _ _ _ h hq] at hx
        rcases List.mem_cons.mp hx with h2 | h2
        · rw [h2]; exact List.mem_cons_self _ _
        · exact List.mem_cons_of_mem _ (ih _ x h2)
      · rw [deliverAll_fst_drop _ _ _ _ _ _ h
          (Bool.eq_false_iff.mpr hq)] at hx
        exact List.mem_cons_of_mem _ (ih _ x hx)

theorem deliverAll_untouched (cap : Nat) (msg : Message) (skip : Option Nat)
    (r : Nat) :
    ∀ (members : List Client) (mbs : List (Nat × Mailbox)),
      (∀ m ∈ members, m.ref ≠ r) →
      alGet (Hub.deliverAll cap msg skip members mbs).2 r = alGet mbs r := by
  intro members
  induction members with
  | nil =>
    intro mbs _
    rw [deliverAll_nil]
  | cons c rest ih =>
    intro mbs hne
    by_cases h : skip = some c.ref
    · rw [deliverAll_snd_skip _ _ _ _ _ _ h]
      exact ih mbs (fun m hm => hne m (List.mem_cons_of_mem _ hm))
    · rw [deliverAll_snd_noskip _ _ _ _ _ _ h]
      rw [ih _ (fun m hm => hne m (List.mem_cons_of_mem _ hm))]
      exact deliverTo_untouched cap msg mbs c r (hne c (List.mem_cons_self _ _))

theorem deliverAll_skip_untouched (cap : Nat) (msg : Message) (r : Nat) :
    ∀ (members : List Client) (mbs : List (Nat × Mailbox)),
      alGet (Hub.deliverAll cap msg (some r) members mbs).2 r = alGet mbs r := by
  intro members
  induction members with
  | nil =>
    intro mbs
    rw [deliverAll_nil]
  | cons c rest ih =>
    intro mbs
    by_cases h : (some r : Option Nat) = some c.ref
    · rw [deliverAll_snd_skip _ _ _ _ _ _ h]
      exact ih mbs
    · rw [deliverAll_snd_noskip _ _ _ _ _ _ h]
      rw [ih _]
      have hcr : c.ref ≠ r := by
        intro he
        exact h (by rw [he])
      exact deliverTo_untouched cap msg mbs c r hcr

theorem deliverAll_keeps_skipped (cap : Nat) (msg : Message) (m : Client) :
    ∀ (members : List Client) (mbs : List (Nat × Mailbox)), m ∈ members →
      m ∈ (Hub.deliverAll cap msg (some m.ref) members mbs).1 := by
  intro members
  induction members with
  | nil =>
    intro mbs h
    simp at h
  | cons c rest ih =>
    intro mbs hm
    by_cases h : (some m.ref : Option Nat) = some c.ref
    · rw [deliverAll_fst_skip _ _ _ _ _ _ h]
      rcases List.mem_cons.mp hm with h2 | h2
      · rw [h2]; exact List.mem_cons_self _ _
      · exact List.mem_cons_of_mem _ (ih mbs h2)
    · have hm2 : m ∈ rest := by
        rcases List.mem_cons.mp hm with h2 | h2
        · exact absurd (by rw [h2]) h
        · exact h2
      by_cases hq : (Hub.deliverTo cap msg mbs c).1 = true
      · rw [deliverAll_fst_keep _ _ _ _ _ _ h hq]
        exact List.mem_cons_of_mem _ (ih _ hm2)
      · rw [deliverAll_fst_drop _ _ _ _ _ _ h (Bool.eq_false_iff.mpr hq)]
        exact ih _ hm2

theorem deliverTo_delivers (cap : Nat) (msg : Message)
    (mbs : List (Nat × Mailbox)) (c : Client) (mb : Mailbox)
    (hget : alGet mbs c.ref = some mb) (hopen : mb.closed = false)
    (hlen : mb.msgs.length < cap) :
    Hub.deliverTo cap msg mbs c =
      (true, alSet mbs c.ref { mb with msgs := mb.msgs ++ [msg] }) := by
  unfold Hub.deliverTo
  rw [hget]
  simp [hopen, hlen]

theorem deliverTo_evicts (cap : Nat) (msg : Message)
    (mbs : List (Nat × Mailbox)) (c : Client) (mb : Mailbox)
    (hget : alGet mbs c.ref = some mb) (hopen : mb.closed = false)
    (hfull : ¬ mb.msgs.length < cap) :
    Hub.deliverTo cap msg mbs c =
      (false, alSet mbs c.ref { mb with closed := true }) := by
  unfold Hub.deliverTo
  rw [hget]
  simp [hopen, hfull]

theorem deliverAll_delivers (cap : Nat) (msg : Message) (skip : Option Nat)
    (m : Client) (mb : Mailbox) :
    ∀ (members : List Client) (mbs : List (Nat × Mailbox)),
      members.Pairwise (fun a b => a.ref ≠ b.ref) →
      m ∈ members → ¬ skip = some m.ref →
      alGet mbs m.ref = some mb → mb.closed = false → mb.msgs.length < cap →
      alGet (Hub.deliverAll cap msg skip members mbs).2 m.ref =
          some { mb with msgs := mb.msgs ++ [msg] } ∧
        m ∈ (Hub.deliverAll cap msg skip members mbs).1 := by
  intro members
  induction members with
  | nil =>
    intro mbs _ hm
    simp at hm
  | cons c rest ih =>
    intro mbs hpw hm hskip hget hopen hlen
    rw [List.pairwise_cons] at hpw
    obtain ⟨hhead, hrest⟩ := hpw
    rcases List.mem_cons.mp hm with h2 | h2
    · subst h2
      have hdel := deliverTo_delivers cap msg mbs m mb hget hopen hlen
      have hq : (Hub.deliverTo cap msg mbs m).1 = true := by rw [hdel]
      rw [deliverAll_fst_keep _ _ _ _ _ _ hskip hq,
        deliverAll_snd_noskip _ _ _ _ _ _ hskip]
      constructor
      · rw [deliverAll_untouched cap msg skip m.ref rest _
          (fun x hx => (hhead x hx).symm)]
        rw [hdel]
        exact alGet_alSet_self _ _ _
      · exact List.mem_cons_self _ _
    · have hcr : c.ref ≠ m.ref := hhead m h2
      by_cases h : skip = some c.ref
      · rw [deliverAll_fst_skip _ _ _ _ _ _ h,
          deliverAll_snd_skip _ _ _ _ _ _ h]
        obtain ⟨ha, hb⟩ := ih mbs hrest h2 hskip hget hopen hlen
        exact ⟨ha, List.mem_cons_of_mem _ hb⟩
      · have hget2 : alGet (Hub.deliverTo cap msg mbs c).2 m.ref = some mb := by
          rw [deliverTo_untouched cap msg mbs c m.ref hcr]
          exact hget
        obtain ⟨ha, hb⟩ := ih _ hrest h2 hskip hget2 hopen hlen
        rw [deliverAll_snd_noskip _ _ _ _ _ _ h]
        refine ⟨ha, ?_⟩
        by_cases hq : (Hub.deliverTo cap msg mbs c).1 = true
        · rw [deliverAll_fst_keep _ _ _ _ _ _ h hq]
          exact List.mem_cons_of_mem _ hb
        · rw [deliverAll_fst_drop _ _ _ _ _ _ h (Bool.eq_false_iff.mpr hq)]
          exact hb

theorem deliverAll_evicts (cap : Nat) (msg : Message) (skip : Option Nat)
    (m : Client) (mb : Mailbox) :
    ∀ (members : List Client) (mbs : List (Nat × Mailbox)),
      members.Pairwise (fun a b => a.ref ≠ b.ref) →
      m ∈ members → ¬ skip = some m.ref →
      alGet mbs m.ref = some mb → mb.closed = false → ¬ mb.msgs.length < cap →
      alGet (Hub.deliverAll cap msg skip members mbs).2 m.ref =
          some { mb with closed := true } ∧
        ∀ x ∈ (Hub.deliverAll cap msg skip members mbs).1, x.ref ≠ m.ref := by
  intro members
  induction members with
  | nil =>
    intro mbs _ hm
    simp at hm
  | cons c rest ih =>
    intro mbs hpw hm hskip hget hopen hfull
    rw [List.pairwise_cons] at hpw
    obtain ⟨hhead, hrest⟩ := hpw
    rcases List.mem_cons.mp hm with h2 | h2
    · subst h2
      have hdel := deliverTo_evicts cap msg mbs m mb hget hopen hfull
      have hq : (Hub.deliverTo cap msg mbs m).1 = false := by rw [hdel]
      rw [deliverAll_fst_drop _ _ _ _ _ _ hskip hq,
        deliverAll_snd_noskip _ _ _ _ _ _ hskip]
      constructor
      · rw [deliverAll_untouched cap msg skip m.ref rest _
          (fun x hx => (hhead x hx).symm)]
        rw [hdel]
        exact alGet_alSet_self _ _ _
      · intro x hx
        have hx2 : x ∈ rest := deliverAll_sub cap msg skip rest _ x hx
        exact (hhead x hx2).symm
    · have hcr : c.ref ≠ m.ref := hhead m h2
      by_cases h : skip = some c.ref
      · rw [deliverAll_fst_skip _ _ _ _ _ _ h,
          deliverAll_snd_skip _ _ _ _ _ _ h]
        obtain ⟨ha, hb⟩ := ih mbs hrest h2 hskip hget hopen hfull
        refine ⟨ha, ?_⟩
        intro x hx
        rcases List.mem_cons.mp hx with h3 | h3
        · rw [h3]; exact hcr
        · exact hb x h3
      · have hget2 : alGet (Hub.deliverTo cap msg mbs c).2 m.ref = some mb := by
          rw [deliverTo_untouched cap msg mbs c m.ref hcr]
          exact hget
        obtain ⟨ha, hb⟩ := ih _ hrest h2 hskip hget2 hopen hfull
        rw [deliverAll_snd_noskip _ _ _ _ _ _ h]
        refine ⟨ha, ?_⟩
        by_cases hq : (Hub.deliverTo cap msg mbs c).1 = true
        · rw [deliverAll_fst_keep _ _ _ _ _ _ h hq]
          intro x hx
          rcases List.mem_cons.mp hx with h3 | h3
          · rw [h3]; exact hcr
          · exact hb x h3
        · rw [deliverAll_fst_drop _ _ _ _ _ _ h (Bool.eq_false_iff.mpr hq)]
          exact hb

theorem deliverAll_all_delivered (cap : Nat) (msg : Message) :
    ∀ (members : List Client) (mbs : List (Nat × Mailbox)),
      members.Pairwise (fun a b => a.ref ≠ b.ref) →
      (∀ m ∈ members, ∃ mb, alGet mbs m.ref = some mb ∧ mb.closed = false ∧
        mb.msgs.length < cap) →
      (Hub.deliverAll cap msg none members mbs).1 = members := by
  intro members
  induction members with
  | nil =>
    intro mbs _ _
    rw [deliverAll_nil]
  | cons c rest ih =>
    intro mbs hpw hok
    rw [List.pairwise_cons] at hpw
    obtain ⟨hhead, hrest⟩ := hpw
    obtain ⟨mb, hget, hopen, hlen⟩ := hok c (List.mem_cons_self _ _)
    have hdel := deliverTo_delivers cap msg mbs c mb hget hopen hlen
    have hns : ¬ (none : Option Nat) = some c.ref := by simp
    rw [deliverAll_fst_keep _ _ _ _ _ _ hns (by rw [hdel])]
    congr 1
    apply ih
    · exact hrest
    · intro m hm
      obtain ⟨mb2, hget2, hopen2, hlen2⟩ := hok m (List.mem_cons_of_mem _ hm)
      refine ⟨mb2, ?_, hopen2, hlen2⟩
      rw [deliverTo_untouched cap msg mbs c m.ref (hhead m hm)]
      exact hget2

/-! Extraction lemmas for well-formed states and unfolding equations for the
hub operations. -/

theorem mbOpen_elim (mbs : List (Nat × Mailbox)) (r : Nat)
    (h : mbOpen mbs r = true) :
    ∃ mb, alGet mbs r = some mb ∧ mb.closed = false := by
  unfold mbOpen at h
  cases halg : alGet mbs r with
  | none => rw [halg] at h; simp at h
  | some mb =>
    rw [halg] at h
    simp at h
    exact ⟨mb, rfl, h⟩

theorem wf_room_pairwise (s : HubState) (code : String) (room : Room)
    (hwf : WFState s) (h : alGet s.Rooms code = some room) :
    room.Clients.Pairwise (fun a b => a.ref ≠ b.ref) :=
  ((hwf.2.1 (code, room) (alGet_mem _ _ _ h)).2.2).1

theorem wf_room_open (s : HubState) (code : String) (room : Room) (c : Client)
    (hwf : WFState s) (h : alGet s.Rooms code = some room)
    (hc : c ∈ room.Clients) : mbOpen s.mailboxes c.ref = true :=
  ((hwf.2.1 (code, room) (alGet_mem _ _ _ h)).2.2).2 c hc

theorem wf_room_code (s : HubState) (code : String) (room : Room) (c : Client)
    (hwf : WFState s) (h : alGet s.Rooms code = some room)
    (hc : c ∈ room.Clients) : c.RoomCode = code :=
  (hwf.2.1 (code, room) (alGet_mem _ _ _ h)).2.1 c hc

theorem Broadcast_absent (cap : Nat) (s : HubState) (msg : Message)
    (sender : Client) (h : alGet s.Rooms sender.RoomCode = none) :
    Hub.Broadcast cap s msg sender = s := by
  unfold Hub.Broadcast
  rw [h]

theorem Broadcast_present (cap : Nat) (s : HubState) (msg : Message)
    (sender : Client) (room : Room)
    (h : alGet s.Rooms sender.RoomCode = some room) :
    Hub.Broadcast cap s msg sender =
      { Rooms := alSet s.Rooms sender.RoomCode
          { room with Clients :=
            (Hub.deliverAll cap msg (some sender.ref) room.Clients
              s.mailboxes).1 },
        mailboxes :=
          (Hub.deliverAll cap msg (some sender.ref) room.Clients
            s.mailboxes).2 } := by
  unfold Hub.Broadcast
  rw [h]

theorem BroadcastUserList_absent (cap : Nat) (s : HubState) (code : String)
    (h : alGet s.Rooms code = none) :
    Hub.BroadcastUserList cap s code = s := by
  unfold Hub.BroadcastUserList
  rw [h]

theorem BroadcastUserList_present (cap : Nat) (s : HubState) (code : String)
    (room : Room) (h : alGet s.Rooms code = some room) :
    Hub.BroadcastUserList cap s code =
      { Rooms := alSet s.Rooms code
          { room with Clients :=
            (Hub.deliverAll cap (userListMessage room.Clients) none
              room.Clients s.mailboxes).1 },
        mailboxes :=
          (Hub.deliverAll cap (userListMessage room.Clients) none
            room.Clients s.mailboxes).2 } := by
  unfold Hub.BroadcastUserList
  rw [h]

theorem registerClient_absent (cap : Nat) (s : HubState) (client : Client)
    (h : alGet s.Rooms client.RoomCode = none) :
    Hub.registerClient cap s client =
      Hub.BroadcastUserList cap
        { s with Rooms := (alSet s.Rooms client.RoomCode
            { Code := client.RoomCode, Clients := [client] }) }
        client.RoomCode := by
  unfold Hub.registerClient
  rw [h]

theorem registerClient_present (cap : Nat) (s : HubState) (client : Client)
    (room : Room) (h : alGet s.Rooms client.RoomCode = some room) :
    Hub.registerClient cap s client =
      Hub.BroadcastUserList cap
        { s with Rooms := (alSet s.Rooms client.RoomCode
            { room with Clients := Hub.addMember room.Clients client }) }
        client.RoomCode := by
  unfold Hub.registerClient
  rw [h]

theorem unregisterClient_absent (cap : Nat) (s : HubState) (client : Client)
    (h : alGet s.Rooms client.RoomCode = none) :
    Hub.unregisterClient cap s client = s := by
  unfold Hub.unregisterClient
  rw [h]

theorem unregisterClient_present (cap : Nat) (s : HubState) (client : Client)
    (room : Room) (h : alGet s.Rooms client.RoomCode = some room) :
    Hub.unregisterClient cap s client =
      Hub.dropRoomIfEmpty
        (Hub.BroadcastUserList cap (Hub.removeAndClose s client)
          client.RoomCode)
        client.RoomCode := by
  unfold Hub.unregisterClient
  rw [h]

theorem removeAndClose_rooms (s : HubState) (client : Client) (room : Room)
    (h : alGet s.Rooms client.RoomCode = some room) :
    ∃ roomRC, (Hub.removeAndClose s client).Rooms =
      alSet s.Rooms client.RoomCode roomRC := by
  unfold Hub.removeAndClose
  rw [h]
  dsimp only
  by_cases hp : room.Clients.any (fun m => m.ref == client.ref) = true
  · rw [if_pos hp]
    exact ⟨_, rfl⟩
  · rw [if_neg hp]
    exact ⟨room, (alSet_id _ _ _ h).symm⟩

theorem offcode_alSet (l : List (String × Room)) (code : String) (A : Room)
    (hnd : l.Pairwise fun a b => a.1 ≠ b.1)
    (h : ∀ e ∈ l, e.1 ≠ code → e.2.Clients ≠ []) :
    ∀ e ∈ alSet l code A, e.1 ≠ code → e.2.Clients ≠ [] := by
  intro e he hne
  rcases mem_alSet_nodup _ _ _ hnd e he with ⟨he2, _⟩ | he2
  · exact h e he2 hne
  · exact absurd (by rw [he2]) hne

theorem registryInv_alSet (l : List (String × Room)) (code : String) (B : Room)
    (hnd : l.Pairwise fun a b => a.1 ≠ b.1)
    (hinv : ∀ e ∈ l, e.1 ≠ code → e.2.Clients ≠ [])
    (hB : B.Clients ≠ []) :
    ∀ e ∈ alSet l code B, e.2.Clients ≠ [] := by
  intro e he
  rcases mem_alSet_nodup _ _ _ hnd e he with ⟨he2, hne⟩ | he2
  · exact hinv e he2 hne
  · rw [he2]
    exact hB

theorem registryInv_alErase (l : List (String × Room)) (code : String)
    (hinv : ∀ e ∈ l, e.1 ≠ code → e.2.Clients ≠ []) :
    ∀ e ∈ alErase l code, e.2.Clients ≠ [] := by
  intro e he
  obtain ⟨he1, hne⟩ := mem_alErase _ _ _ he
  exact hinv e he1 hne

theorem alGet_of_mem_nodup [DecidableEq α] (l : List (α × β))
    (hnd : l.Pairwise (fun a b => a.1 ≠ b.1)) (e : α × β) (he : e ∈ l) :
    alGet l e.1 = some e.2 := by
  induction l with
  | nil => simp at he
  | cons e2 rest ih =>
    rw [List.pairwise_cons] at hnd
    obtain ⟨hhead, hrest⟩ := hnd
    rcases List.mem_cons.mp he with h | h
    · rw [h]
      obtain ⟨k2, v2⟩ := e2
      simp [alGet]
    · obtain ⟨k2, v2⟩ := e2
      have hne : k2 ≠ e.1 := hhead e h
      simp [alGet, hne, ih hrest h]

theorem dropRoomIfEmpty_registryInv (s : HubState) (code : String)
    (hnd : s.Rooms.Pairwise fun a b => a.1 ≠ b.1)
    (hoff : ∀ e ∈ s.Rooms, e.1 ≠ code → e.2.Clients ≠ []) :
    RegistryInv (Hub.dropRoomIfEmpty s code) := by
  unfold Hub.dropRoomIfEmpty
  cases halg : alGet s.Rooms code with
  | none =>
    intro e he
    by_cases hc : e.1 = code
    · exfalso
      have hg := alGet_of_mem_nodup s.Rooms hnd e he
      rw [hc, halg] at hg
      exact Option.noConfusion hg
    · exact hoff e he hc
  | some room =>
    dsimp only
    by_cases hlen : room.Clients.length = 0
    · rw [if_pos hlen]
      intro e he
      exact registryInv_alErase _ _ hoff e he
    · rw [if_neg hlen]
      intro e he
      by_cases hc : e.1 = code
      · have hg := alGet_of_mem_nodup s.Rooms hnd e he
        rw [hc, halg] at hg
        rw [← Option.some.inj hg]
        intro hnil
        apply hlen
        rw [hnil]
        rfl
      · exact hoff e he hc

theorem registryInv_register_aux (cap : Nat) (s : HubState) (client : Client)
    (mbc : Mailbox)
    (hwf : WFState s) (hinv : RegistryInv s)
    (hmb : alGet s.mailboxes client.ref = some mbc)
    (hopen : mbc.closed = false) (hlen : mbc.msgs.length < cap) :
    RegistryInv (Hub.registerClient cap s client) := by
  cases halg : alGet s.Rooms client.RoomCode with
  | none =>
    rw [registerClient_absent cap s client halg]
    have hget : alGet (alSet s.Rooms client.RoomCode
        { Code := client.RoomCode, Clients := [client] }) client.RoomCode =
        some { Code := client.RoomCode, Clients := [client] } :=
      alGet_alSet_self _ _ _
    rw [BroadcastUserList_present cap _ client.RoomCode _ hget]
    intro e he
    refine registryInv_alSet _ _ _ (keysNodup_alSet _ _ _ hwf.1)
      (offcode_alSet _ _ _ hwf.1 (fun e2 he2 _ => hinv e2 he2)) ?_ e he
    have hmem := (deliverAll_delivers cap
      (userListMessage [client]) none client mbc [client] s.mailboxes
      (by simp) (by simp) (by simp) hmb hopen hlen).2
    exact List.ne_nil_of_mem hmem
  | some room =>
    rw [registerClient_present cap s client room halg]
    have hget : alGet (alSet s.Rooms client.RoomCode
        { room with Clients := Hub.addMember room.Clients client })
        client.RoomCode =
        some { room with Clients := Hub.addMember room.Clients client } :=
      alGet_alSet_self _ _ _
    rw [BroadcastUserList_present cap _ client.RoomCode _ hget]
    intro e he
    refine registryInv_alSet _ _ _ (keysNodup_alSet _ _ _ hwf.1)
      (offcode_alSet _ _ _ hwf.1 (fun e2 he2 _ => hinv e2 he2)) ?_ e he
    have hpw := wf_room_pairwise s client.RoomCode room hwf halg
    by_cases hany : room.Clients.any (fun m => m.ref == client.ref) = true
    · have haddm : Hub.addMember room.Clients client = room.Clients := by
        unfold Hub.addMember
        rw [if_pos hany]
      obtain ⟨m0, hm0, hm0ref⟩ := List.any_eq_true.mp hany
      have hm0ref2 : m0.ref = client.ref := by simpa using hm0ref
      have hmb0 : alGet s.mailboxes m0.ref = some mbc := by
        rw [hm0ref2]
        exact hmb
      have hmem := (deliverAll_delivers cap
        (userListMessage (Hub.addMember room.Clients client)) none m0 mbc
        (Hub.addMember room.Clients client) s.mailboxes
        (by rw [haddm]; exact hpw) (by rw [haddm]; exact hm0)
        (by simp) hmb0 hopen hlen).2
      exact List.ne_nil_of_mem hmem
    · have haddm : Hub.addMember room.Clients client =
          room.Clients ++ [client] := by
        unfold Hub.addMember
        rw [if_neg hany]
      have hnotin : ∀ m ∈ room.Clients, m.ref ≠ client.ref := by
        intro m hm heq
        apply hany
        exact List.any_eq_true.mpr ⟨m, hm, by simp [heq]⟩
      have hpw2 : (Hub.addMember room.Clients client).Pairwise
          (fun a b => a.ref ≠ b.ref) := by
        rw [haddm, List.pairwise_append]
        refine ⟨hpw, by simp, ?_⟩
        intro a ha b hb
        rw [List.mem_singleton.mp hb]
        exact hnotin a ha
      have hmem := (deliverAll_delivers cap
        (userListMessage (Hub.addMember room.Clients client)) none client mbc
        (Hub.addMember room.Clients client) s.mailboxes hpw2
        (by rw [haddm]; exact List.mem_append_right _ (by simp))
        (by simp) hmb hopen hlen).2
      exact List.ne_nil_of_mem hmem

theorem registryInv_unregister_aux (cap : Nat) (s : HubState) (client : Client)
    (hwf : WFState s) (hinv : RegistryInv s) :
    RegistryInv (Hub.unregisterClient cap s client) := by
  cases halg : alGet s.Rooms client.RoomCode with
  | none =>
    rw [unregisterClient_absent cap s client halg]
    exact hinv
  | some room =>
    rw [unregisterClient_present cap s client room halg]
    obtain ⟨roomRC, hRC⟩ := removeAndClose_rooms s client room halg
    have hnd1 : (Hub.removeAndClose s client).Rooms.Pairwise
        (fun a b => a.1 ≠ b.1) := by
      rw [hRC]
      exact keysNodup_alSet _ _ _ hwf.1
    have hoff1 : ∀ e ∈ (Hub.removeAndClose s client).Rooms,
        e.1 ≠ client.RoomCode → e.2.Clients ≠ [] := by
      rw [hRC]
      exact offcode_alSet _ _ _ hwf.1 (fun e2 he2 _ => hinv e2 he2)
    have hget : alGet (Hub.removeAndClose s client).Rooms client.RoomCode =
        some roomRC := by
      rw [hRC]
      exact alGet_alSet_self _ _ _
    rw [BroadcastUserList_present cap _ client.RoomCode roomRC hget]
    refine dropRoomIfEmpty_registryInv _ _ ?_ ?_
    · exact keysNodup_alSet _ _ _ hnd1
    · exact offcode_alSet _ _ _ hnd1 hoff1

theorem registryInv_broadcast_aux (cap : Nat) (s : HubState) (msg : Message)
    (sender : Client)
    (hwf : WFState s) (hinv : RegistryInv s)
    (hsend : clientRegistered s sender.RoomCode sender) :
    RegistryInv (Hub.Broadcast cap s msg sender) := by
  obtain ⟨room, hget, hmem⟩ := hsend
  rw [Broadcast_present cap s msg sender room hget]
  intro e he
  refine registryInv_alSet _ _ _ hwf.1 (fun e2 he2 _ => hinv e2 he2) ?_ e he
  exact List.ne_nil_of_mem
    (deliverAll_keeps_skipped cap msg sender room.Clients s.mailboxes hmem)

/-! The claims. -/

/-- C1.  Room isolation: in every well-formed hub state, for two clients
registered under distinct room codes, a Broadcast whose sender is registered
in room A never enqueues anything into the mailbox of a client registered
under room code B with B distinct from A: the whole mailbox of that client
is untouched, delivery being confined to the room looked up under the room
code of the sender. -/
theorem broadcast_room_isolation (cap : Nat) (s : HubState) (msg : Message)
    (sender c : Client) (codeB : String)
    (hwf : WFState s)
    (_hsender : clientRegistered s sender.RoomCode sender)
    (hc : clientRegistered s codeB c)
    (hdiff : codeB ≠ sender.RoomCode) :
    alGet (Hub.Broadcast cap s msg sender).mailboxes c.ref =
      alGet s.mailboxes c.ref := by
  cases halg : alGet s.Rooms sender.RoomCode with
  | none => rw [Broadcast_absent cap s msg sender halg]
  | some roomA =>
    rw [Broadcast_present cap s msg sender roomA halg]
    obtain ⟨roomB, hgetB, hmemB⟩ := hc
    have hnotin : ∀ m ∈ roomA.Clients, m.ref ≠ c.ref := by
      intro m hm heq
      have hmc : m = c :=
        hwf.2.2 (sender.RoomCode, roomA) (alGet_mem _ _ _ halg)
          (codeB, roomB) (alGet_mem _ _ _ hgetB) m hm c hmemB heq
      have h1 : m.RoomCode = sender.RoomCode :=
        wf_room_code s sender.RoomCode roomA m hwf halg hm
      have h2 : c.RoomCode = codeB :=
        wf_room_code s codeB roomB c hwf hgetB hmemB
      rw [hmc] at h1
      apply hdiff
      rw [← h2, h1]
    exact deliverAll_untouched cap msg (some sender.ref) c.ref
      roomA.Clients s.mailboxes hnotin

theorem broadcast_room_isolation_witness :
    alGet (Hub.Broadcast clientSendBuffer sTwoRooms seekMsg cAnn).mailboxes
        cDan.ref = alGet sTwoRooms.mailboxes cDan.ref :=
  broadcast_room_isolation clientSendBuffer sTwoRooms seekMsg cAnn cDan "q"
    (by decide) (by decide) (by decide) (by decide)

set_option maxRecDepth 8192 in
/-- C2 counterexample: in the well-formed state sBenFull the room of the
sender exists and Ben is a member distinct from the sender, yet the
broadcast message is not delivered to Ben: his full mailbox is closed with
its old content and the message is not in it, refuting delivery to every
member except the sender. -/
theorem broadcast_no_echo_counterexample :
    WFState sBenFull ∧
    alGet sBenFull.Rooms cAnn.RoomCode =
      some { Code := "r", Clients := [cAnn, cBen] } ∧
    cBen ∈ [cAnn, cBen] ∧ cBen.ref ≠ cAnn.ref ∧
    alGet (Hub.Broadcast clientSendBuffer sBenFull seekMsg cAnn).mailboxes
        cBen.ref =
      some { msgs := List.replicate clientSendBuffer padMsg, closed := true } ∧
    seekMsg ∉ List.replicate clientSendBuffer padMsg := by
  refine ⟨by decide, by decide, by decide, by decide, by decide, by decide⟩

theorem broadcast_sender_untouched (cap : Nat) (s : HubState) (msg : Message)
    (sender : Client) :
    alGet (Hub.Broadcast cap s msg sender).mailboxes sender.ref =
      alGet s.mailboxes sender.ref := by
  cases halg : alGet s.Rooms sender.RoomCode with
  | none => rw [Broadcast_absent cap s msg sender halg]
  | some room =>
    rw [Broadcast_present cap s msg sender room halg]
    exact deliverAll_skip_untouched cap msg sender.ref room.Clients s.mailboxes

/-- C2 amended.  No-echo holds unconditionally: in every hub state the
mailbox of the sender is untouched by its own broadcast, whether or not its
room exists.  Delivery to the other members is the non-blocking rule: in a
well-formed state whose room under the sender room code exists, every
member other than the sender whose mailbox is not full receives exactly the
message appended to its mailbox, and every member other than the sender
whose mailbox is full is evicted, its mailbox closed with the message not
delivered. -/
theorem broadcast_no_echo_amended (cap : Nat) (s : HubState) (msg : Message)
    (sender : Client) :
    (alGet (Hub.Broadcast cap s msg sender).mailboxes sender.ref =
      alGet s.mailboxes sender.ref) ∧
    (WFState s → ∀ room, alGet s.Rooms sender.RoomCode = some room →
      ∀ m ∈ room.Clients, m.ref ≠ sender.ref →
      ∀ mb, alGet s.mailboxes m.ref = some mb →
      (mb.msgs.length < cap →
        alGet (Hub.Broadcast cap s msg sender).mailboxes m.ref =
          some { mb with msgs := mb.msgs ++ [msg] }) ∧
      (¬ mb.msgs.length < cap →
        alGet (Hub.Broadcast cap s msg sender).mailboxes m.ref =
          some { mb with closed := true })) := by
  constructor
  · exact broadcast_sender_untouched cap s msg sender
  · intro hwf room hroom m hm hne mb hget
    have hopen : mb.closed = false := by
      obtain ⟨mb2, hget2, hop⟩ := mbOpen_elim s.mailboxes m.ref
        (wf_room_open s sender.RoomCode room m hwf hroom hm)
      rw [hget] at hget2
      rw [Option.some.inj hget2]
      exact hop
    constructor
    · intro hlen
      rw [Broadcast_present cap s msg sender room hroom]
      exact (deliverAll_delivers cap msg (some sender.ref) m mb room.Clients
        s.mailboxes (wf_room_pairwise s sender.RoomCode room hwf hroom) hm
        (fun hco => hne (Option.some.inj hco).symm) hget hopen hlen).1
    · intro hfull
      rw [Broadcast_present cap s msg sender room hroom]
      exact (deliverAll_evicts cap msg (some sender.ref) m mb room.Clients
        s.mailboxes (wf_room_pairwise s sender.RoomCode room hwf hroom) hm
        (fun hco => hne (Option.some.inj hco).symm) hget hopen hfull).1

theorem broadcast_no_echo_amended_witness :
    (alGet (Hub.Broadcast clientSendBuffer sAnnBen seekMsg cAnn).mailboxes
        cAnn.ref = alGet sAnnBen.mailboxes cAnn.ref) ∧
    (alGet (Hub.Broadcast clientSendBuffer sAnnBen seekMsg cAnn).mailboxes
        cBen.ref =
      some { emptyBox with msgs := emptyBox.msgs ++ [seekMsg] }) := by
  have h := broadcast_no_echo_amended clientSendBuffer sAnnBen seekMsg cAnn
  exact ⟨h.1, (h.2 (by decide) { Code := "r", Clients := [cAnn, cBen] }
    (by decide) cBen (by decide) (by decide) emptyBox (by decide)).1
    (by decide)⟩

set_option maxRecDepth 8192 in
/-- C3 counterexample: sLoneFull is well formed and satisfies the
registry-membership invariant (its single registered room r has the member
Ben), yet a Broadcast whose sender Eve carries room code r without being a
member evicts Ben, the only member, without deleting the room: after the
operation the registry still holds room r with no member, refuting the
claimed if-and-only-if after every complete hub operation. -/
theorem registry_inv_counterexample :
    WFState sLoneFull ∧ RegistryInv sLoneFull ∧
    clientRegistered sLoneFull "r" cBen ∧
    ¬ RegistryInv (Hub.Broadcast clientSendBuffer sLoneFull seekMsg cEve) := by
  refine ⟨by decide, by decide, by decide, by decide⟩

/-- C3 amended.  In a well-formed state satisfying the invariant that every
registered room is nonempty, the invariant is preserved: by registerClient
whenever the registering client has an existing open non-full mailbox
(every client registered through ServeWs has a fresh empty one); by every
unregisterClient, with no condition on the client, covering in particular a
repeated unregister of an already-evicted client whose mailbox is closed;
and by every Broadcast whose sender is still a member of the room under its
room code.  A Broadcast whose sender has already been removed can evict the
last member and leave an empty room registered, since Broadcast has no
empty-room cleanup. -/
theorem registry_inv_amended (cap : Nat) (s : HubState)
    (client sender : Client) (msg : Message)
    (hwf : WFState s) (hinv : RegistryInv s) :
    (∀ mbc, alGet s.mailboxes client.ref = some mbc → mbc.closed = false →
      mbc.msgs.length < cap →
      RegistryInv (Hub.registerClient cap s client)) ∧
    RegistryInv (Hub.unregisterClient cap s client) ∧
    (clientRegistered s sender.RoomCode sender →
      RegistryInv (Hub.Broadcast cap s msg sender)) :=
  ⟨fun mbc hmb hopen hlen =>
    registryInv_register_aux cap s client mbc hwf hinv hmb hopen hlen,
   registryInv_unregister_aux cap s client hwf hinv,
   fun hsend => registryInv_broadcast_aux cap s msg sender hwf hinv hsend⟩

theorem registry_inv_amended_witness :
    RegistryInv (Hub.registerClient clientSendBuffer sAnnBen cEve) ∧
    RegistryInv (Hub.unregisterClient clientSendBuffer sAnnBen cEve) ∧
    RegistryInv (Hub.Broadcast clientSendBuffer sAnnBen seekMsg cAnn) := by
  have h := registry_inv_amended clientSendBuffer sAnnBen cEve cAnn seekMsg
    (by decide) (by decide)
  exact ⟨h.1 emptyBox (by decide) (by decide) (by decide), h.2.1,
    h.2.2 (by decide)⟩

/-- C4.  Eviction on full mailbox: in a well-formed state, a broadcast
delivery attempt, by Broadcast or by BroadcastUserList, to a room member
whose mailbox already holds at least cap undelivered messages closes that
mailbox with its content unchanged and removes the member from the room,
and no subsequent Broadcast in that room touches the mailbox of the evicted
member again. -/
theorem broadcast_evicts_full_mailbox (cap : Nat) (s : HubState)
    (msg : Message) (sender m : Client) (room : Room) (mb : Mailbox)
    (hwf : WFState s)
    (hroom : alGet s.Rooms sender.RoomCode = some room)
    (hm : m ∈ room.Clients) (hne : m.ref ≠ sender.ref)
    (hmb : alGet s.mailboxes m.ref = some mb)
    (hfull : ¬ mb.msgs.length < cap) :
    (alGet (Hub.Broadcast cap s msg sender).mailboxes m.ref =
      some { mb with closed := true }) ∧
    (∀ room2, alGet (Hub.Broadcast cap s msg sender).Rooms sender.RoomCode =
      some room2 → ∀ x ∈ room2.Clients, x.ref ≠ m.ref) ∧
    (∀ msg2 sender2, sender2.RoomCode = sender.RoomCode →
      alGet (Hub.Broadcast cap (Hub.Broadcast cap s msg sender) msg2
          sender2).mailboxes m.ref =
        alGet (Hub.Broadcast cap s msg sender).mailboxes m.ref) ∧
    (alGet (Hub.BroadcastUserList cap s sender.RoomCode).mailboxes m.ref =
      some { mb with closed := true }) ∧
    (∀ room2, alGet (Hub.BroadcastUserList cap s sender.RoomCode).Rooms
      sender.RoomCode = some room2 → ∀ x ∈ room2.Clients, x.ref ≠ m.ref) := by
  have hopen : mb.closed = false := by
    obtain ⟨mb2, hget2, hop⟩ := mbOpen_elim s.mailboxes m.ref
      (wf_room_open s sender.RoomCode room m hwf hroom hm)
    rw [hmb] at hget2
    rw [Option.some.inj hget2]
    exact hop
  have hpw := wf_room_pairwise s sender.RoomCode room hwf hroom
  have hskip : ¬ (some sender.ref : Option Nat) = some m.ref :=
    fun hco => hne (Option.some.inj hco).symm
  have hev := deliverAll_evicts cap msg (some sender.ref) m mb room.Clients
    s.mailboxes hpw hm hskip hmb hopen hfull
  have hevU := deliverAll_evicts cap (userListMessage room.Clients) none m mb
    room.Clients s.mailboxes hpw hm (by simp) hmb hopen hfull
  refine ⟨?_, ?_, ?_, ?_, ?_⟩
  · rw [Broadcast_present cap s msg sender room hroom]
    exact hev.1
  · intro room2 hg
    rw [Broadcast_present cap s msg sender room hroom] at hg
    dsimp only at hg
    rw [alGet_alSet_self] at hg
    intro x hx
    rw [← Option.some.inj hg] at hx
    exact hev.2 x hx
  · intro msg2 sender2 hcode
    have hg2 : alGet (Hub.Broadcast cap s msg sender).Rooms sender2.RoomCode =
        some { room with Clients :=
          (Hub.deliverAll cap msg (some sender.ref) room.Clients
            s.mailboxes).1 } := by
      rw [hcode, Broadcast_present cap s msg sender room hroom]
      dsimp only
      exact alGet_alSet_self _ _ _
    rw [Broadcast_present cap _ msg2 sender2 _ hg2]
    dsimp only
    exact deliverAll_untouched cap msg2 (some sender2.ref) m.ref _ _
      (fun x hx => hev.2 x hx)
  · rw [BroadcastUserList_present cap s sender.RoomCode room hroom]
    exact hevU.1
  · intro room2 hg
    rw [BroadcastUserList_present cap s sender.RoomCode room hroom] at hg
    dsimp only at hg
    rw [alGet_alSet_self] at hg
    intro x hx
    rw [← Option.some.inj hg] at hx
    exact hevU.2 x hx

set_option maxRecDepth 8192 in
theorem broadcast_evicts_full_mailbox_witness :
    (alGet (Hub.Broadcast clientSendBuffer sBenFull seekMsg cAnn).mailboxes
      cBen.ref = some { fullBox with closed := true }) ∧
    (∀ room2, alGet (Hub.Broadcast clientSendBuffer sBenFull seekMsg
        cAnn).Rooms cAnn.RoomCode = some room2 →
      ∀ x ∈ room2.Clients, x.ref ≠ cBen.ref) ∧
    (∀ msg2 sender2, sender2.RoomCode = cAnn.RoomCode →
      alGet (Hub.Broadcast clientSendBuffer
          (Hub.Broadcast clientSendBuffer sBenFull seekMsg cAnn) msg2
          sender2).mailboxes cBen.ref =
        alGet (Hub.Broadcast clientSendBuffer sBenFull seekMsg
          cAnn).mailboxes cBen.ref) ∧
    (alGet (Hub.BroadcastUserList clientSendBuffer sBenFull
      cAnn.RoomCode).mailboxes cBen.ref =
      some { fullBox with closed := true }) ∧
    (∀ room2, alGet (Hub.BroadcastUserList clientSendBuffer sBenFull
        cAnn.RoomCode).Rooms cAnn.RoomCode = some room2 →
      ∀ x ∈ room2.Clients, x.ref ≠ cBen.ref) :=
  broadcast_evicts_full_mailbox clientSendBuffer sBenFull seekMsg cAnn cBen
    { Code := "r", Clients := [cAnn, cBen] } fullBox
    (by decide) (by decide) (by decide) (by decide) (by decide) (by decide)

theorem removeAndClose_no_cref (s : HubState) (c : Client) (room0 : Room)
    (h : alGet s.Rooms c.RoomCode = some room0) :
    ∃ roomRC, (Hub.removeAndClose s c).Rooms =
        alSet s.Rooms c.RoomCode roomRC ∧
      ∀ x ∈ roomRC.Clients, x.ref ≠ c.ref := by
  unfold Hub.removeAndClose
  rw [h]
  dsimp only
  by_cases hp : room0.Clients.any (fun m => m.ref == c.ref) = true
  · rw [if_pos hp]
    refine ⟨_, rfl, ?_⟩
    intro x hx
    have hfx := List.of_mem_filter hx
    simpa using hfx
  · rw [if_neg hp]
    refine ⟨room0, (alSet_id _ _ _ h).symm, ?_⟩
    intro x hx heq
    apply hp
    exact List.any_eq_true.mpr ⟨x, hx, by simp [heq]⟩

theorem removeAndClose_noop (s : HubState) (c : Client) (room : Room)
    (h : alGet s.Rooms c.RoomCode = some room)
    (hnoref : ∀ m ∈ room.Clients, m.ref ≠ c.ref) :
    Hub.removeAndClose s c = s := by
  unfold Hub.removeAndClose
  rw [h]
  dsimp only
  have hanyf : room.Clients.any (fun m => m.ref == c.ref) = false := by
    rw [List.any_eq_false]
    intro x hx
    simp [hnoref x hx]
  rw [hanyf]
  simp

theorem dropRoomIfEmpty_mailboxes (s : HubState) (code : String) :
    (Hub.dropRoomIfEmpty s code).mailboxes = s.mailboxes := by
  unfold Hub.dropRoomIfEmpty
  cases halg : alGet s.Rooms code with
  | none => rfl
  | some room =>
    dsimp only
    by_cases h : room.Clients.length = 0
    · rw [if_pos h]
    · rw [if_neg h]

theorem unregister_no_cref_member (cap : Nat) (s : HubState) (c : Client) :
    ∀ room, alGet (Hub.unregisterClient cap s c).Rooms c.RoomCode =
      some room → ∀ m ∈ room.Clients, m.ref ≠ c.ref := by
  intro room hg m hm
  cases halg : alGet s.Rooms c.RoomCode with
  | none =>
    rw [unregisterClient_absent cap s c halg, halg] at hg
    exact Option.noConfusion hg
  | some room0 =>
    rw [unregisterClient_present cap s c room0 halg] at hg
    obtain ⟨roomRC, hRC, hnoref⟩ := removeAndClose_no_cref s c room0 halg
    have hget : alGet (Hub.removeAndClose s c).Rooms c.RoomCode =
        some roomRC := by
      rw [hRC]
      exact alGet_alSet_self _ _ _
    rw [BroadcastUserList_present cap _ c.RoomCode roomRC hget] at hg
    unfold Hub.dropRoomIfEmpty at hg
    dsimp only at hg
    rw [alGet_alSet_self] at hg
    dsimp only at hg
    by_cases hB : ({ roomRC with Clients := (Hub.deliverAll cap
        (userListMessage roomRC.Clients) none roomRC.Clients
        (Hub.removeAndClose s c).mailboxes).1 } : Room).Clients.length = 0
    · rw [if_pos hB] at hg
      dsimp only at hg
      rw [alGet_alErase_self] at hg
      exact Option.noConfusion hg
    · rw [if_neg hB] at hg
      dsimp only at hg
      rw [alGet_alSet_self] at hg
      rw [← Option.some.inj hg] at hm
      exact hnoref m (deliverAll_sub _ _ _ _ _ m hm)

theorem unregister_room_nonempty (cap : Nat) (s : HubState) (c : Client)
    (room1 : Room)
    (h1 : alGet (Hub.unregisterClient cap s c).Rooms c.RoomCode =
      some room1) : room1.Clients.length ≠ 0 := by
  cases halg : alGet s.Rooms c.RoomCode with
  | none =>
    rw [unregisterClient_absent cap s c halg, halg] at h1
    exact Option.noConfusion h1
  | some room0 =>
    rw [unregisterClient_present cap s c room0 halg] at h1
    obtain ⟨roomRC, hRC⟩ := removeAndClose_rooms s c room0 halg
    have hget : alGet (Hub.removeAndClose s c).Rooms c.RoomCode =
        some roomRC := by
      rw [hRC]
      exact alGet_alSet_self _ _ _
    rw [BroadcastUserList_present cap _ c.RoomCode roomRC hget] at h1
    unfold Hub.dropRoomIfEmpty at h1
    dsimp only at h1
    rw [alGet_alSet_self] at h1
    dsimp only at h1
    by_cases hB : ({ roomRC with Clients := (Hub.deliverAll cap
        (userListMessage roomRC.Clients) none roomRC.Clients
        (Hub.removeAndClose s c).mailboxes).1 } : Room).Clients.length = 0
    · rw [if_pos hB] at h1
      dsimp only at h1
      rw [alGet_alErase_self] at h1
      exact Option.noConfusion h1
    · rw [if_neg hB] at h1
      dsimp only at h1
      rw [alGet_alSet_self] at h1
      rw [← Option.some.inj h1]
      exact hB

theorem unregister_second_mailbox (cap : Nat) (s : HubState) (c : Client) :
    alGet (Hub.unregisterClient cap
        (Hub.unregisterClient cap s c) c).mailboxes c.ref =
      alGet (Hub.unregisterClient cap s c).mailboxes c.ref := by
  cases halg : alGet (Hub.unregisterClient cap s c).Rooms c.RoomCode with
  | none => rw [unregisterClient_absent cap _ c halg]
  | some room1 =>
    have hnoref := unregister_no_cref_member cap s c room1 halg
    have hRC := removeAndClose_noop (Hub.unregisterClient cap s c) c room1
      halg hnoref
    rw [unregisterClient_present cap _ c room1 halg, hRC,
      BroadcastUserList_present cap _ c.RoomCode room1 halg,
      dropRoomIfEmpty_mailboxes]
    dsimp only
    exact deliverAll_untouched cap (userListMessage room1.Clients) none c.ref
      room1.Clients (Hub.unregisterClient cap s c).mailboxes hnoref

theorem unregister_second_rooms (cap : Nat) (s : HubState) (c : Client)
    (room1 : Room)
    (h1 : alGet (Hub.unregisterClient cap s c).Rooms c.RoomCode = some room1)
    (hpw : room1.Clients.Pairwise (fun a b => a.ref ≠ b.ref))
    (hok : ∀ m ∈ room1.Clients, ∃ mb,
      alGet (Hub.unregisterClient cap s c).mailboxes m.ref = some mb ∧
      mb.closed = false ∧ mb.msgs.length < cap) :
    (Hub.unregisterClient cap (Hub.unregisterClient cap s c) c).Rooms =
      (Hub.unregisterClient cap s c).Rooms ∧
    (∀ m ∈ room1.Clients, ∀ mb,
      alGet (Hub.unregisterClient cap s c).mailboxes m.ref = some mb →
      alGet (Hub.unregisterClient cap
          (Hub.unregisterClient cap s c) c).mailboxes m.ref =
        some { mb with msgs :=
          mb.msgs ++ [userListMessage room1.Clients] }) := by
  have hne0 := unregister_room_nonempty cap s c room1 h1
  have hnoref := unregister_no_cref_member cap s c room1 h1
  have hRC := removeAndClose_noop (Hub.unregisterClient cap s c) c room1
    h1 hnoref
  have hsur : (Hub.deliverAll cap (userListMessage room1.Clients) none
      room1.Clients (Hub.unregisterClient cap s c).mailboxes).1 =
      room1.Clients :=
    deliverAll_all_delivered cap _ room1.Clients _ hpw hok
  rw [unregisterClient_present cap _ c room1 h1, hRC,
    BroadcastUserList_present cap _ c.RoomCode room1 h1]
  constructor
  · unfold Hub.dropRoomIfEmpty
    dsimp only
    rw [alGet_alSet_self]
    dsimp only
    rw [hsur]
    rw [if_neg hne0]
    dsimp only
    exact alSet_id _ _ _ h1
  · intro m hm mb hmb
    rw [dropRoomIfEmpty_mailboxes]
    dsimp only
    obtain ⟨mb2, hget2, hopen2, hlen2⟩ := hok m hm
    rw [hmb] at hget2
    rw [← Option.some.inj hget2] at hopen2 hlen2
    exact (deliverAll_delivers cap (userListMessage room1.Clients) none m mb
      room1.Clients (Hub.unregisterClient cap s c).mailboxes hpw hm
      (by simp) hmb hopen2 hlen2).1

/-- C5 counterexample: in the well-formed two-member state sAnnBen,
unregistering Ann twice does not produce the end state of unregistering her
once: the second call repeats the userList broadcast, so the mailbox of the
surviving member Ben holds two userList messages instead of one, refuting
equality of all mailbox contents. -/
theorem unregister_twice_counterexample :
    WFState sAnnBen ∧
    Hub.unregisterClient clientSendBuffer
        (Hub.unregisterClient clientSendBuffer sAnnBen cAnn) cAnn ≠
      Hub.unregisterClient clientSendBuffer sAnnBen cAnn := by
  refine ⟨by decide, by decide⟩

/-- C5 amended.  A second unregisterClient for the same client is a complete
no-op when the first call deleted the room; in every case it never touches
the mailbox of the client again, so the mailbox is closed at most once and
nothing panics; and when the room survived with members whose mailboxes are
open and not full, the second call leaves the registry and all memberships
exactly as after the first call, the only difference being that every
surviving member receives one additional userList message in its mailbox. -/
theorem unregister_twice_amended (cap : Nat) (s : HubState) (c : Client) :
    (alGet (Hub.unregisterClient cap s c).Rooms c.RoomCode = none →
      Hub.unregisterClient cap (Hub.unregisterClient cap s c) c =
        Hub.unregisterClient cap s c) ∧
    (alGet (Hub.unregisterClient cap
        (Hub.unregisterClient cap s c) c).mailboxes c.ref =
      alGet (Hub.unregisterClient cap s c).mailboxes c.ref) ∧
    (∀ room1, alGet (Hub.unregisterClient cap s c).Rooms c.RoomCode =
        some room1 →
      room1.Clients.Pairwise (fun a b => a.ref ≠ b.ref) →
      (∀ m ∈ room1.Clients, ∃ mb,
        alGet (Hub.unregisterClient cap s c).mailboxes m.ref = some mb ∧
        mb.closed = false ∧ mb.msgs.length < cap) →
      (Hub.unregisterClient cap (Hub.unregisterClient cap s c) c).Rooms =
        (Hub.unregisterClient cap s c).Rooms ∧
      (∀ m ∈ room1.Clients, ∀ mb,
        alGet (Hub.unregisterClient cap s c).mailboxes m.ref = some mb →
        alGet (Hub.unregisterClient cap
            (Hub.unregisterClient cap s c) c).mailboxes m.ref =
          some { mb with msgs :=
            mb.msgs ++ [userListMessage room1.Clients] })) :=
  ⟨fun h1 => unregisterClient_absent cap _ c h1,
   unregister_second_mailbox cap s c,
   fun room1 h1 hpw hok => unregister_second_rooms cap s c room1 h1 hpw hok⟩

theorem unregister_twice_amended_witness :
    (alGet (Hub.unregisterClient clientSendBuffer
        (Hub.unregisterClient clientSendBuffer sAnnBen cAnn) cAnn).mailboxes
      cAnn.ref =
      alGet (Hub.unregisterClient clientSendBuffer sAnnBen cAnn).mailboxes
        cAnn.ref) ∧
    ((Hub.unregisterClient clientSendBuffer
        (Hub.unregisterClient clientSendBuffer sAnnBen cAnn) cAnn).Rooms =
      (Hub.unregisterClient clientSendBuffer sAnnBen cAnn).Rooms) := by
  have h := unregister_twice_amended clientSendBuffer sAnnBen cAnn
  refine ⟨h.2.1, (h.2.2 { Code := "r", Clients := [cBen] }
    (by decide) (by decide) ?_).1⟩
  intro m hm
  have hm2 : m = cBen := List.mem_singleton.mp hm
  subst hm2
  exact ⟨{ msgs := [userListMessage [cBen]], closed := false },
    by decide, by decide, by decide⟩

set_option maxRecDepth 8192 in
/-- C6 counterexample: in the well-formed state sBenAnn the userList
broadcast snapshots the membership Ben, Ann, then evicts Ben whose mailbox
is full; Ann then receives a userList whose payload still carries the pair
of Ben although Ben is no longer in the room at that delivery, and Ben,
a member when the broadcast started, receives nothing at all: the delivered
snapshot does not equal the live membership at delivery and delivery does
not reach every member. -/
theorem user_list_snapshot_counterexample :
    WFState sBenAnn ∧
    alGet (Hub.BroadcastUserList clientSendBuffer sBenAnn "r").Rooms "r" =
      some { Code := "r", Clients := [cAnn] } ∧
    alGet (Hub.BroadcastUserList clientSendBuffer sBenAnn "r").mailboxes
        cAnn.ref =
      some { msgs := [userListMessage [cBen, cAnn]], closed := false } ∧
    (userListMessage [cBen, cAnn]).userName =
      "[\x7b\"id\":\"ub\",\"name\":\"Ben\"\x7d,\x7b\"id\":\"ua\",\"name\":\"Ann\"\x7d]" ∧
    alGet (Hub.BroadcastUserList clientSendBuffer sBenAnn "r").mailboxes
        cBen.ref =
      some { msgs := List.replicate clientSendBuffer padMsg,
             closed := true } := by
  refine ⟨by decide, by decide, by decide, by decide, by decide⟩

/-- C6 amended.  Every message a userList broadcast delivers is of type
userList and carries in UserName the JSON array of the (id, name) pairs of
the membership snapshotted when the broadcast starts, that is immediately
after the join or leave settles, one entry per member in iteration order;
it is delivered to every member whose mailbox is not full, while a member
with a full mailbox is evicted instead of receiving it, and may therefore
still appear in the snapshot a later recipient receives. -/
theorem user_list_snapshot_amended (cap : Nat) (s : HubState) (code : String)
    (room : Room)
    (hwf : WFState s)
    (hroom : alGet s.Rooms code = some room) :
    ((userListMessage room.Clients).type = "userList") ∧
    ((userListMessage room.Clients).userName = userListJSON room.Clients) ∧
    (∀ m ∈ room.Clients, ∀ mb, alGet s.mailboxes m.ref = some mb →
      mb.msgs.length < cap →
      alGet (Hub.BroadcastUserList cap s code).mailboxes m.ref =
        some { mb with msgs :=
          mb.msgs ++ [userListMessage room.Clients] }) ∧
    (∀ m ∈ room.Clients, ∀ mb, alGet s.mailboxes m.ref = some mb →
      ¬ mb.msgs.length < cap →
      alGet (Hub.BroadcastUserList cap s code).mailboxes m.ref =
        some { mb with closed := true }) := by
  refine ⟨rfl, rfl, ?_, ?_⟩
  · intro m hm mb hget hlen
    have hopen : mb.closed = false := by
      obtain ⟨mb2, hget2, hop⟩ := mbOpen_elim s.mailboxes m.ref
        (wf_room_open s code room m hwf hroom hm)
      rw [hget] at hget2
      rw [Option.some.inj hget2]
      exact hop
    rw [BroadcastUserList_present cap s code room hroom]
    exact (deliverAll_delivers cap (userListMessage room.Clients) none m mb
      room.Clients s.mailboxes (wf_room_pairwise s code room hwf hroom) hm
      (by simp) hget hopen hlen).1
  · intro m hm mb hget hfull
    have hopen : mb.closed = false := by
      obtain ⟨mb2, hget2, hop⟩ := mbOpen_elim s.mailboxes m.ref
        (wf_room_open s code room m hwf hroom hm)
      rw [hget] at hget2
      rw [Option.some.inj hget2]
      exact hop
    rw [BroadcastUserList_present cap s code room hroom]
    exact (deliverAll_evicts cap (userListMessage room.Clients) none m mb
      room.Clients s.mailboxes (wf_room_pairwise s code room hwf hroom) hm
      (by simp) hget hopen hfull).1

theorem user_list_snapshot_amended_witness :
    ((userListMessage [cAnn, cBen]).type = "userList") ∧
    ((userListMessage [cAnn, cBen]).userName = userListJSON [cAnn, cBen]) ∧
    (∀ m ∈ ({ Code := "r", Clients := [cAnn, cBen] } : Room).Clients,
      ∀ mb, alGet sAnnBen.mailboxes m.ref = some mb →
      mb.msgs.length < clientSendBuffer →
      alGet (Hub.BroadcastUserList clientSendBuffer sAnnBen "r").mailboxes
          m.ref =
        some { mb with msgs := mb.msgs ++ [userListMessage [cAnn, cBen]] }) ∧
    (∀ m ∈ ({ Code := "r", Clients := [cAnn, cBen] } : Room).Clients,
      ∀ mb, alGet sAnnBen.mailboxes m.ref = some mb →
      ¬ mb.msgs.length < clientSendBuffer →
      alGet (Hub.BroadcastUserList clientSendBuffer sAnnBen "r").mailboxes
          m.ref =
        some { mb with closed := true }) :=
  user_list_snapshot_amended clientSendBuffer sAnnBen "r"
    { Code := "r", Clients := [cAnn, cBen] } (by decide) (by decide)

/-- C7.  Identity stamping: the message the ingress loop submits to
Hub.Broadcast after a successful read carries in UserID exactly the
registered ID of the reading client, and the userID value the frame carried
on the wire has no effect whatsoever on the submission: the resulting hub
state is identical for every wire-supplied userID. -/
theorem readpump_stamps_identity (cap : Nat) (s : HubState) (client : Client)
    (msg : Message) :
    (stampMessage client msg).userID = client.ID ∧
    readPumpStep cap s client msg =
      Hub.Broadcast cap s (stampMessage client msg) client ∧
    (∀ wireID : String,
      readPumpStep cap s client { msg with userID := wireID } =
        readPumpStep cap s client msg) := by
  refine ⟨rfl, rfl, ?_⟩
  intro wireID
  rfl

/-- C8.  Join-parameter validation: whenever any of the three query
parameters room code, display name or user ID is empty (a missing query
parameter reads as the empty string), the handler answers 400 before any
upgrade, creates no client, and returns the hub state completely
unchanged. -/
theorem servews_rejects_missing_params (cap : Nat) (s : HubState) (ref : Nat)
    (roomCode userName userID : String)
    (h : roomCode = "" ∨ userName = "" ∨ userID = "") :
    serveWs cap s ref roomCode userName userID =
      (ServeWsResult.rejected 400, s) := by
  unfold serveWs
  rw [if_pos h]

theorem servews_rejects_missing_params_witness :
    serveWs clientSendBuffer sAnnBen 9 "" "Zoe" "uz" =
      (ServeWsResult.rejected 400, sAnnBen) :=
  servews_rejects_missing_params clientSendBuffer sAnnBen 9 "" "Zoe" "uz"
    (Or.inl rfl)

set_option maxRecDepth 8192 in
/-- C9 counterexample: in the well-formed state sLoneFull the sender Eve has
been removed from room r while the room still holds the member Ben, so the
claim asserts the message is still delivered to Ben; instead Ben, whose
mailbox is full, is evicted and the message is not delivered to him. -/
theorem departed_sender_counterexample :
    WFState sLoneFull ∧
    alGet sLoneFull.Rooms cEve.RoomCode =
      some { Code := "r", Clients := [cBen] } ∧
    (∀ m ∈ [cBen], m.ref ≠ cEve.ref) ∧
    alGet (Hub.Broadcast clientSendBuffer sLoneFull seekMsg cEve).mailboxes
        cBen.ref =
      some { msgs := List.replicate clientSendBuffer padMsg,
             closed := true } ∧
    seekMsg ∉ List.replicate clientSendBuffer padMsg := by
  refine ⟨by decide, by decide, by decide, by decide, by decide⟩

/-- C9 amended.  Broadcast checks only that a room exists under the room
code of the sender, never that the sender is a member: when the room is
absent the state is returned unchanged (silent drop), and when the room
exists while the sender is no longer among its members, the message is
still delivered, appended to the mailbox, to every remaining member whose
mailbox is not full; a remaining member with a full mailbox is evicted
rather than delivered to. -/
theorem departed_sender_amended (cap : Nat) (s : HubState) (msg : Message)
    (sender : Client)
    (hwf : WFState s) :
    (alGet s.Rooms sender.RoomCode = none →
      Hub.Broadcast cap s msg sender = s) ∧
    (∀ room, alGet s.Rooms sender.RoomCode = some room →
      (∀ m ∈ room.Clients, m.ref ≠ sender.ref) →
      ∀ m ∈ room.Clients, ∀ mb, alGet s.mailboxes m.ref = some mb →
        mb.msgs.length < cap →
        alGet (Hub.Broadcast cap s msg sender).mailboxes m.ref =
          some { mb with msgs := mb.msgs ++ [msg] }) := by
  constructor
  · intro h
    exact Broadcast_absent cap s msg sender h
  · intro room hroom hdep m hm mb hget hlen
    have hopen : mb.closed = false := by
      obtain ⟨mb2, hget2, hop⟩ := mbOpen_elim s.mailboxes m.ref
        (wf_room_open s sender.RoomCode room m hwf hroom hm)
      rw [hget] at hget2
      rw [Option.some.inj hget2]
      exact hop
    rw [Broadcast_present cap s msg sender room hroom]
    exact (deliverAll_delivers cap msg (some sender.ref) m mb room.Clients
      s.mailboxes (wf_room_pairwise s sender.RoomCode room hwf hroom) hm
      (fun hco => hdep m hm (Option.some.inj hco).symm) hget hopen hlen).1

theorem departed_sender_amended_witness :
    alGet (Hub.Broadcast clientSendBuffer sLoneEmpty seekMsg cEve).mailboxes
      cAnn.ref = some { msgs := [seekMsg], closed := false } := by
  have h := departed_sender_amended clientSendBuffer sLoneEmpty seekMsg cEve
    (by decide)
  exact h.2 { Code := "r", Clients := [cAnn] } (by decide) (by decide)
    cAnn (by decide) emptyBox (by decide) (by decide)

/-- C10.  Message pass-through: the value a recipient mailbox receives from
a broadcast submitted by the ingress loop is exactly the submitted message:
its Type, Timestamp, RoomCode and UserName equal those of the frame read
off the wire, and the only rewritten field is UserID, stamped with the
client ID by the ingress loop before submission; Broadcast itself modifies
nothing, in particular it does not populate RoomCode. -/
theorem broadcast_passthrough (cap : Nat) (s : HubState) (frame : Message)
    (client m : Client) (room : Room) (mb : Mailbox)
    (hwf : WFState s)
    (hroom : alGet s.Rooms client.RoomCode = some room)
    (hm : m ∈ room.Clients) (hne : m.ref ≠ client.ref)
    (hmb : alGet s.mailboxes m.ref = some mb)
    (hlen : mb.msgs.length < cap) :
    alGet (readPumpStep cap s client frame).mailboxes m.ref =
      some { mb with msgs := mb.msgs ++ [stampMessage client frame] } ∧
    (stampMessage client frame).type = frame.type ∧
    (stampMessage client frame).timestamp = frame.timestamp ∧
    (stampMessage client frame).roomCode = frame.roomCode ∧
    (stampMessage client frame).userName = frame.userName ∧
    (stampMessage client frame).userID = client.ID := by
  refine ⟨?_, rfl, rfl, rfl, rfl, rfl⟩
  have hopen : mb.closed = false := by
    obtain ⟨mb2, hget2, hop⟩ := mbOpen_elim s.mailboxes m.ref
      (wf_room_open s client.RoomCode room m hwf hroom hm)
    rw [hmb] at hget2
    rw [Option.some.inj hget2]
    exact hop
  unfold readPumpStep
  rw [Broadcast_present cap s (stampMessage client frame) client room hroom]
  exact (deliverAll_delivers cap (stampMessage client frame)
    (some client.ref) m mb room.Clients s.mailboxes
    (wf_room_pairwise s client.RoomCode room hwf hroom) hm
    (fun hco => hne (Option.some.inj hco).symm) hmb hopen hlen).1

theorem broadcast_passthrough_witness :
    alGet (readPumpStep clientSendBuffer sAnnBen cAnn wireMsg).mailboxes
      cBen.ref =
      some { emptyBox with msgs :=
        emptyBox.msgs ++ [stampMessage cAnn wireMsg] } ∧
    (stampMessage cAnn wireMsg).type = wireMsg.type ∧
    (stampMessage cAnn wireMsg).timestamp = wireMsg.timestamp ∧
    (stampMessage cAnn wireMsg).roomCode = wireMsg.roomCode ∧
    (stampMessage cAnn wireMsg).userName = wireMsg.userName ∧
    (stampMessage cAnn wireMsg).userID = cAnn.ID :=
  broadcast_passthrough clientSendBuffer sAnnBen wireMsg cAnn cBen
    { Code := "r", Clients := [cAnn, cBen] } emptyBox
    (by decide) (by decide) (by decide) (by decide) (by decide) (by decide)

end Coopcinema
